import Mathlib

/-!
Verification of the time-series alignment and threshold-backtest core of the
Chain Radar dashboards (src/streamlit_app.py and src/app.py).

Float64 cells are modelled as exact rationals (ℚ); a NaN cell is modelled as
`none` of an `Option` type.  Timestamps are integers (epoch milliseconds, or
day offsets where only the day grid matters).
-/

namespace ChainRadar

/-- An aligned record (one row of the merged dataframe): the `price` and
`fear` columns, both always present after the merge. -/
structure Rec where
  price : ℚ
  fear : ℚ
deriving DecidableEq

/-- A backtest record: a row after `backtest` has added the `future` and
`return` columns.  `none` models a NaN cell (`shift(-h)` fills the tail of
the `future` column with NaN, and NaN propagates into `return`). -/
structure BRec where
  price : ℚ
  fear : ℚ
  future : Option ℚ
  ret : Option ℚ
deriving DecidableEq

/-- `pandas.Series.shift(-h)`: position `i` receives the element at `i+h`;
the last `min h length` positions become NaN.  Output length = input length. -/
def shiftNeg (h : Nat) (xs : List ℚ) : List (Option ℚ) :=
  (xs.drop h).map some ++ List.replicate (min h xs.length) none

/-- The column-adding part of `backtest` (src/streamlit_app.py lines 83-85):
`df["future"] = df["price"].shift(-lookahead)` and
`df["return"] = (df["future"] - df["price"]) / df["price"]`, rowwise,
with NaN propagating from `future` into `return`. -/
def annotate_forward_return (h : Nat) (recs : List Rec) : List BRec :=
  List.zipWith
    (fun r fo =>
      { price := r.price, fear := r.fear, future := fo,
        ret := fo.map fun f => (f - r.price) / r.price })
    recs (shiftNeg h (recs.map Rec.price))

/-- `DataFrame.dropna()` on the annotated frame: keeps rows whose `future`
and `return` cells are both defined (the only possibly-NaN columns). -/
def dropna (l : List BRec) : List BRec :=
  l.filter fun r => r.future.isSome && r.ret.isSome

/-- The cohort-selection pattern `df[df["fear"] <= 20].dropna()` of
`backtest` (src/streamlit_app.py lines 86-87), with the threshold predicate
abstracted as `p`. -/
def partitionCohort (p : BRec → Bool) (l : List BRec) : List BRec :=
  dropna (l.filter p)

/-- `backtest(df, lookahead)` (src/streamlit_app.py lines 82-88): annotate
forward returns on a copy, then select the fear (≤ 20) and greed (≥ 80)
cohorts. -/
def backtest (recs : List Rec) (lookahead : Nat) : List BRec × List BRec :=
  let ann := annotate_forward_return lookahead recs
  (partitionCohort (fun r => decide (r.fear ≤ 20)) ann,
   partitionCohort (fun r => decide (80 ≤ r.fear)) ann)

/-- `(1 + df["return"]).prod() - 1 if len(df) > 0 else 0` — the per-cohort
total compounded return of `compare_strategies`
(src/streamlit_app.py lines 123-124).  On a cohort coming out of `backtest`
every `ret` cell is defined, so the `getD 0` default is never the value used. -/
def total_return (cohort : List BRec) : ℚ :=
  if 0 < cohort.length then (cohort.map fun r => 1 + r.ret.getD 0).prod - 1 else 0

/-- `Series.cumprod()` with running accumulator `acc`. -/
def cumprodAux (acc : ℚ) : List ℚ → List ℚ
  | [] => []
  | x :: xs => (acc * x) :: cumprodAux (acc * x) xs

/-- The `cumulative` column computed by `cumulative_return`
(src/streamlit_app.py lines 99-102): `(1 + df["return"]).cumprod()`. -/
def cumulative_returns (cohort : List BRec) : List ℚ :=
  cumprodAux 1 (cohort.map fun r => 1 + r.ret.getD 0)

/-- One sentiment observation of the `fng` series: (timestamp, fear value). -/
abbrev Obs := Int × Int

/-- Backward as-of search: the last observation at or before `t` (over a
timestamp-sorted series this is the nearest neighbour from below). -/
def backwardSearch (t : Int) (other : List Obs) : Option Obs :=
  (other.filter fun o => decide (o.1 ≤ t)).getLast?

/-- Forward as-of search: the first observation at or after `t`. -/
def forwardSearch (t : Int) (other : List Obs) : Option Obs :=
  (other.filter fun o => decide (t ≤ o.1)).head?

/-- The nearest-row selection of `merge_asof(..., direction="nearest")`:
pandas takes the backward candidate when its distance to `t` is ≤ the
forward candidate's distance, else the forward candidate. -/
def asofNearest (t : Int) (other : List Obs) : Option Obs :=
  match backwardSearch t other, forwardSearch t other with
  | some b, some f => if t - b.1 ≤ f.1 - t then some b else some f
  | some b, none => some b
  | none, some f => some f
  | none, none => none

/-- `merge_data(price_df)` (src/streamlit_app.py lines 43-50):
`pd.merge_asof(price_df.sort_values("timestamp"), fng.sort_values("timestamp"),
on="timestamp", direction="nearest")`.  A base row keeps its timestamp and
price and is joined with the fear value of the nearest `fng` row (`none`
models the NaN fill used when `fng` has no row at all). -/
def merge_data (price_df : List (Int × ℚ)) (fng : List Obs) :
    List (Int × ℚ × Option Int) :=
  (price_df.insertionSort fun a b => a.1 ≤ b.1).map
    fun b =>
      (b.1, b.2,
        (asofNearest b.1 (fng.insertionSort fun a b => a.1 ≤ b.1)).map Prod.snd)

/-- Milliseconds per day; `floorDay` is `.dt.floor('D')` on epoch-ms. -/
def msPerDay : Nat := 86400000

/-- Floor an epoch-millisecond timestamp to its calendar day index. -/
def floorDay (ts : Nat) : Nat := ts / msPerDay

/-- Arithmetic mean of a list of rationals. -/
def meanQ (l : List ℚ) : ℚ := l.sum / (l.length : ℚ)

/-- The daily resampling of `fetch_coingecko_market_chart`
(src/app.py lines 27-32): the frame of unique floored dates is joined with
the per-day `groupby(...).mean()` aggregate, then sorted by date.  One
metric column suffices (price, market cap and volume are resampled alike). -/
def resample_daily (s : List (Nat × ℚ)) : List (Nat × ℚ) :=
  let days := ((s.map fun o => floorDay o.1).dedup).insertionSort (· ≤ ·)
  days.map fun d =>
    (d, meanQ ((s.filter fun o => decide (floorDay o.1 = d)).map Prod.snd))

/-- The percent-change insight (src/app.py lines 141-143):
`first = df.iloc[0]['price']; last = df.iloc[-1]['price'];
change = (last-first)/first*100`.  `iloc[0]` on an empty frame raises, which
is the only failing case; this is modelled by `none`. -/
def percent_change (prices : List ℚ) : Option ℚ :=
  match prices with
  | [] => none
  | p :: rest => some (((p :: rest).getLast (List.cons_ne_nil p rest) - p) / p * 100)

/-- The synthetic fallback series of `safe_fetch_coingecko`
(src/app.py lines 44-50).  `hsh` models the non-negative `abs(hash(coin_id))`;
dates are day offsets from today (today = 0), so row `i` carries date
`-(days-1-i)` and price `base * (1 + 0.01*((i % 7) - 3))` with
`base = 100 + hsh % 100`. -/
def fallbackSeries (hsh : Nat) (days : Nat) : List (Int × ℚ) :=
  (List.range days).map fun i =>
    (-((days - 1 - i : Nat) : Int),
     ((100 + hsh % 100 : Nat) : ℚ) * (1 + (((i % 7 : Nat) : ℚ) - 3) / 100))

/-- A dataframe object: the merged rows plus the optional `cumulative`
column (empty when the column has not been assigned). -/
structure Frame where
  rows : List BRec
  cumulative : List ℚ
deriving DecidableEq

/-- The object store: python object identity modelled as references into a
heap, with a bump allocator. -/
structure Store where
  heap : Nat → Frame
  next : Nat

/-- `df.copy()`: allocate a fresh reference holding the same frame value. -/
def copyFrame (s : Store) (r : Nat) : Store × Nat :=
  (⟨Function.update s.heap s.next (s.heap r), s.next + 1⟩, s.next)

/-- A column assignment `df[...] = ...`: mutate the object behind `r`. -/
def writeFrame (s : Store) (r : Nat) (f : Frame) : Store :=
  ⟨Function.update s.heap r f, s.next⟩

/-- Forget the backtest columns of a row (the caller's frame rows). -/
def toRec (b : BRec) : Rec := ⟨b.price, b.fear⟩

/-- Operational model of `backtest` (src/streamlit_app.py lines 82-88):
`df = df.copy()` allocates a fresh object, the two column assignments
mutate only that copy, and the two cohorts are returned. -/
def backtestSt (s : Store) (r : Nat) (lookahead : Nat) :
    Store × List BRec × List BRec :=
  let p := copyFrame s r
  let s1 := p.1
  let r1 := p.2
  let ann := annotate_forward_return lookahead ((s1.heap r1).rows.map toRec)
  let s2 := writeFrame s1 r1 ⟨ann, (s1.heap r1).cumulative⟩
  (s2, partitionCohort (fun x => decide (x.fear ≤ 20)) (s2.heap r1).rows,
    partitionCohort (fun x => decide (80 ≤ x.fear)) (s2.heap r1).rows)

/-- Operational model of `cumulative_return` (src/streamlit_app.py
lines 99-102): copy, assign the `cumulative` column on the copy, return it. -/
def cumulativeSt (s : Store) (r : Nat) : Store × Frame :=
  let p := copyFrame s r
  let s1 := p.1
  let r1 := p.2
  let s2 := writeFrame s1 r1 ⟨(s1.heap r1).rows, cumulative_returns (s1.heap r1).rows⟩
  (s2, s2.heap r1)

/-- A concrete 10-record series (prices 1..10, neutral sentiment). -/
def tenRecs : List Rec :=
  [⟨1, 50⟩, ⟨2, 50⟩, ⟨3, 50⟩, ⟨4, 50⟩, ⟨5, 50⟩,
   ⟨6, 50⟩, ⟨7, 50⟩, ⟨8, 50⟩, ⟨9, 50⟩, ⟨10, 50⟩]

/-- A concrete 90-record series in which exactly the first 9 records are in
extreme fear (fear = 10 ≤ 20) and all prices are 1. -/
def scenarioRecs : List Rec :=
  (List.range 90).map fun i => ⟨1, if i < 9 then 10 else 50⟩

/-- A concrete one-element cohort (price 1, fear 10, future 2, return 1). -/
def exCohort : List BRec := [⟨1, 10, some 2, some 1⟩]

/-- A concrete store: one empty frame at reference 0, next free reference 1. -/
def st0 : Store := ⟨fun _ => ⟨[], []⟩, 1⟩

/-- A concrete sentiment series: observations at timestamps 0 and 10, so
timestamp 5 is equidistant from both. -/
def exOther : List Obs := [(0, 30), (10, 40)]

/-- The spec's resampling example: day-0 09:00 → 10, day-0 15:00 → 20,
day-1 09:00 → 30 (timestamps in epoch milliseconds). -/
def exSeries : List (Nat × ℚ) :=
  [(32400000, 10), (54000000, 20), (118800000, 30)]

/-! ### Helper lemmas: shift, annotate, cumprod -/

theorem length_shiftNeg (h : Nat) (xs : List ℚ) : (shiftNeg h xs).length = xs.length := by
  simp only [shiftNeg, List.length_append, List.length_map, List.length_drop,
    List.length_replicate]
  omega

theorem getElem?_shiftNeg (h : Nat) (xs : List ℚ) (i : Nat) (hi : i < xs.length) :
    (shiftNeg h xs)[i]? = some xs[i + h]? := by
  rw [shiftNeg, List.getElem?_append]
  by_cases hc : i + h < xs.length
  · have hlt : i < ((xs.drop h).map some).length := by
      simp only [List.length_map, List.length_drop]; omega
    rw [if_pos hlt, List.getElem?_map, List.getElem?_drop, Nat.add_comm h i,
      List.getElem?_eq_getElem (by omega : i + h < xs.length)]
    rfl
  · have hge : ¬ i < ((xs.drop h).map some).length := by
      simp only [List.length_map, List.length_drop]; omega
    rw [if_neg hge, List.getElem?_replicate,
      if_pos (by simp only [List.length_map, List.length_drop]; omega),
      List.getElem?_eq_none (by omega : xs.length ≤ i + h)]

theorem length_annotate (h : Nat) (recs : List Rec) :
    (annotate_forward_return h recs).length = recs.length := by
  simp [annotate_forward_return, length_shiftNeg]

theorem getElem?_annotate (h : Nat) (recs : List Rec) (i : Nat) (a : Rec)
    (ha : recs[i]? = some a) :
    (annotate_forward_return h recs)[i]? =
      some { price := a.price, fear := a.fear,
             future := (recs[i + h]?).map Rec.price,
             ret := ((recs[i + h]?).map Rec.price).map
               fun f => (f - a.price) / a.price } := by
  have hi : i < recs.length := by
    by_contra hc
    rw [List.getElem?_eq_none (Nat.le_of_not_lt hc)] at ha
    exact Option.noConfusion ha
  rw [annotate_forward_return, List.getElem?_zipWith, ha,
    getElem?_shiftNeg h (recs.map Rec.price) i (by simpa using hi),
    List.getElem?_map]

theorem ret_eq_future_of_mem {h : Nat} {recs : List Rec} {r : BRec}
    (hr : r ∈ annotate_forward_return h recs) :
    r.ret = r.future.map fun f => (f - r.price) / r.price := by
  obtain ⟨i, hi, hgi⟩ := List.getElem_of_mem hr
  have hi' : i < recs.length := by rwa [length_annotate] at hi
  have ha : recs[i]? = some recs[i] := List.getElem?_eq_getElem hi'
  have := getElem?_annotate h recs i recs[i] ha
  rw [List.getElem?_eq_getElem hi, hgi] at this
  cases Option.some.inj this
  rfl

theorem countP_zipWith_right {α β γ : Type} (p : γ → Bool) (q : β → Bool)
    (f : α → β → γ) (hpq : ∀ a b, p (f a b) = q b) :
    ∀ (as : List α) (bs : List β), as.length = bs.length →
      (List.zipWith f as bs).countP p = bs.countP q := by
  intro as
  induction as with
  | nil =>
    intro bs hb
    cases bs with
    | nil => simp
    | cons b bs => simp at hb
  | cons a as ih =>
    intro bs hb
    cases bs with
    | nil => simp at hb
    | cons b bs =>
      simp only [List.zipWith_cons_cons, List.countP_cons, hpq a b]
      rw [ih bs (by simpa using hb)]

theorem countP_isSome_shiftNeg (h : Nat) (xs : List ℚ) :
    (shiftNeg h xs).countP (fun o => o.isSome) = xs.length - h := by
  rw [shiftNeg, List.countP_append, List.countP_map]
  have h1 : List.countP ((fun o : Option ℚ => o.isSome) ∘ some) (xs.drop h) =
      (xs.drop h).length := by
    apply List.countP_eq_length.mpr
    intro a _
    simp
  have h2 : (List.replicate (min h xs.length) (none : Option ℚ)).countP
      (fun o => o.isSome) = 0 := by
    apply List.countP_eq_zero.mpr
    intro a ha
    simp [List.eq_of_mem_replicate ha]
  rw [h1, h2, List.length_drop]
  omega

theorem countP_ret_isSome_annotate (h : Nat) (recs : List Rec) :
    (annotate_forward_return h recs).countP (fun r => r.ret.isSome) =
      recs.length - h := by
  have heq := countP_zipWith_right (fun r : BRec => r.ret.isSome)
    (fun o : Option ℚ => o.isSome)
    (fun r fo =>
      { price := r.price, fear := r.fear, future := fo,
        ret := fo.map fun f => (f - r.price) / r.price })
    (fun a b => by simp) recs (shiftNeg h (recs.map Rec.price))
    (by rw [length_shiftNeg, List.length_map])
  rw [annotate_forward_return, heq, countP_isSome_shiftNeg, List.length_map]

theorem length_cumprodAux : ∀ (l : List ℚ) (acc : ℚ),
    (cumprodAux acc l).length = l.length := by
  intro l
  induction l with
  | nil => intro acc; simp [cumprodAux]
  | cons x xs ih => intro acc; simp [cumprodAux, ih]

theorem getElem?_cumprodAux : ∀ (l : List ℚ) (acc : ℚ) (i : Nat),
    (cumprodAux acc l)[i]? =
      if i < l.length then some (acc * (l.take (i + 1)).prod) else none := by
  intro l
  induction l with
  | nil => intro acc i; simp [cumprodAux]
  | cons x xs ih =>
    intro acc i
    cases i with
    | zero => simp [cumprodAux]
    | succ n =>
      rw [cumprodAux]
      simp only [List.getElem?_cons_succ, ih (acc * x) n, List.length_cons,
        List.take_succ_cons, List.prod_cons]
      by_cases hc : n < xs.length
      · rw [if_pos hc, if_pos (by omega)]
        rw [mul_assoc]
      · rw [if_neg hc, if_neg (by omega)]

/-! ### Claim theorems: backtest engine -/

/-- C1: for every aligned record sequence and horizon `h > 0`,
`annotate_forward_return` gives index `i` a defined forward return equal to
`(price[i+h] - price[i]) / price[i]` exactly when `i + h < length`; no
sentinel is assigned past that bound, and the number of records with a
defined forward return is `length - h` (so 3 for a 10-record series with
`h = 7`). -/
theorem forward_return_defined_iff (recs : List Rec) (h : Nat) (hh : 0 < h) :
    (annotate_forward_return h recs).length = recs.length ∧
    (∀ i a, recs[i]? = some a →
      ((annotate_forward_return h recs)[i]?).map BRec.ret =
        some ((recs[i + h]?).map fun b => (b.price - a.price) / a.price)) ∧
    (∀ i a, recs[i]? = some a →
      (((annotate_forward_return h recs)[i]?).map (fun r => r.ret.isSome) = some true
        ↔ i + h < recs.length)) ∧
    (∀ (p : BRec → Bool),
      ∀ r ∈ partitionCohort p (annotate_forward_return h recs),
        r.ret.isSome = true) ∧
    (annotate_forward_return h recs).countP (fun r => r.ret.isSome) =
      recs.length - h := by
  refine ⟨length_annotate h recs, ?_, ?_, ?_, countP_ret_isSome_annotate h recs⟩
  · intro i a ha
    rw [getElem?_annotate h recs i a ha]
    simp only [Option.map_some', Option.map_map, Option.some.injEq]
    rcases recs[i + h]? with _ | b <;> rfl
  · intro i a ha
    rw [getElem?_annotate h recs i a ha]
    simp only [Option.map_some', Option.isSome_map', Option.some.injEq]
    constructor
    · intro hs
      by_contra hc
      rw [List.getElem?_eq_none (Nat.le_of_not_lt hc)] at hs
      simp at hs
    · intro hlt
      rw [List.getElem?_eq_getElem hlt]
      rfl
  · intro p r hr
    have hd := (List.mem_filter.mp hr).2
    rw [Bool.and_eq_true] at hd
    exact hd.2

/-- Witness for C1: the 10-record example with horizon 7 has exactly 3
records with a defined forward return. -/
theorem forward_return_defined_iff_witness :
    (0 : Nat) < 7 ∧
    (annotate_forward_return 7 tenRecs).countP (fun r => r.ret.isSome) = 3 := by
  refine ⟨by decide, ?_⟩
  have h := (forward_return_defined_iff tenRecs 7 (by decide)).2.2.2.2
  simpa [tenRecs] using h

theorem dropna_eq_nil_of_future_none {l : List BRec}
    (hl : ∀ r ∈ l, r.future = none) : dropna l = [] := by
  rw [dropna, List.filter_eq_nil_iff]
  intro r hr
  simp [hl r hr]

theorem future_none_of_le {h : Nat} {recs : List Rec} (hle : recs.length ≤ h) :
    ∀ r ∈ annotate_forward_return h recs, r.future = none := by
  intro r hr
  obtain ⟨i, hi, hgi⟩ := List.getElem_of_mem hr
  have hi' : i < recs.length := by rwa [length_annotate] at hi
  have := getElem?_annotate h recs i recs[i] (List.getElem?_eq_getElem hi')
  rw [List.getElem?_eq_getElem hi, hgi] at this
  cases Option.some.inj this
  simp [List.getElem?_eq_none (by omega : recs.length ≤ i + h)]

/-- C2: `total_return` is the product of `1 + forward_return` over the cohort
minus one, exactly `0` on an empty cohort, and when the horizon is at least
the series length every record is excluded, the cohort is empty and the
total return is `0`. -/
theorem total_return_spec :
    (∀ cohort : List BRec, cohort ≠ [] →
      total_return cohort = (cohort.map fun r => 1 + r.ret.getD 0).prod - 1) ∧
    total_return [] = 0 ∧
    (∀ (recs : List Rec) (h : Nat) (p : BRec → Bool), recs.length ≤ h →
      partitionCohort p (annotate_forward_return h recs) = [] ∧
      total_return (partitionCohort p (annotate_forward_return h recs)) = 0) := by
  refine ⟨?_, by simp [total_return], ?_⟩
  · intro cohort hne
    rw [total_return, if_pos (List.length_pos.mpr hne)]
  · intro recs h p hle
    have hnil : partitionCohort p (annotate_forward_return h recs) = [] := by
      apply dropna_eq_nil_of_future_none
      intro r hr
      exact future_none_of_le hle r (List.mem_of_mem_filter hr)
    exact ⟨hnil, by rw [hnil]; simp [total_return]⟩

/-- Witness for C2: a 10-record series with horizon 12 ≥ 10 yields an empty
fear cohort with total return exactly 0. -/
theorem total_return_spec_witness :
    tenRecs.length ≤ 12 ∧
    partitionCohort (fun r => decide (r.fear ≤ 20))
      (annotate_forward_return 12 tenRecs) = [] ∧
    total_return (partitionCohort (fun r => decide (r.fear ≤ 20))
      (annotate_forward_return 12 tenRecs)) = 0 := by
  refine ⟨by decide, ?_, ?_⟩
  · exact (total_return_spec.2.2 tenRecs 12 _ (by decide)).1
  · exact (total_return_spec.2.2 tenRecs 12 _ (by decide)).2

/-- C3: `cumulative_returns` has one value per cohort record, satisfies
`cumulative[0] = 1 + forward_return[0]` and
`cumulative[i] = cumulative[i-1] * (1 + forward_return[i])`, its last element
is `1 + total_return` of the cohort, and an empty cohort yields the empty
sequence. -/
theorem cumulative_returns_spec (cohort : List BRec) :
    (cumulative_returns cohort).length = cohort.length ∧
    (cumulative_returns cohort)[0]? =
      (cohort[0]?).map (fun r => 1 + r.ret.getD 0) ∧
    (∀ i r, cohort[i + 1]? = some r →
      (cumulative_returns cohort)[i + 1]? =
        ((cumulative_returns cohort)[i]?).map fun c => c * (1 + r.ret.getD 0)) ∧
    (cohort ≠ [] →
      (cumulative_returns cohort).getLast? = some (1 + total_return cohort)) ∧
    cumulative_returns ([] : List BRec) = [] := by
  refine ⟨?_, ?_, ?_, ?_, rfl⟩
  · rw [cumulative_returns, length_cumprodAux, List.length_map]
  · cases cohort with
    | nil => rfl
    | cons c cs => simp [cumulative_returns, cumprodAux]
  · intro i r hr
    have hi : i + 1 < cohort.length := by
      by_contra hc
      rw [List.getElem?_eq_none (Nat.le_of_not_lt hc)] at hr
      exact Option.noConfusion hr
    rw [cumulative_returns, getElem?_cumprodAux, getElem?_cumprodAux,
      if_pos (by simpa using hi), if_pos (by simp; omega)]
    rw [List.prod_take_succ _ (i + 1) (by simpa using hi)]
    simp only [List.getElem_map, Option.map_some']
    have hc := List.getElem?_eq_getElem hi
    rw [hr] at hc
    have hc2 := Option.some.inj hc
    rw [← hc2]
    congr 1
    ring
  · intro hne
    have hlen : 0 < cohort.length := List.length_pos.mpr hne
    rw [cumulative_returns, List.getLast?_eq_getElem?, length_cumprodAux,
      List.length_map, getElem?_cumprodAux,
      if_pos (by simp; omega)]
    have htake : (cohort.map fun x => 1 + x.ret.getD 0).take
        (cohort.length - 1 + 1) = cohort.map fun x => 1 + x.ret.getD 0 := by
      apply List.take_of_length_le
      simp
      omega
    rw [htake, total_return, if_pos hlen]
    congr 1
    ring

/-- Witness for C3: a concrete one-element cohort; its last cumulative value
is `1 + total_return`. -/
theorem cumulative_returns_spec_witness :
    exCohort ≠ [] ∧
    (cumulative_returns exCohort).getLast? = some (1 + total_return exCohort) :=
  ⟨by decide, (cumulative_returns_spec exCohort).2.2.2.1 (by decide)⟩

/-- C6: the cohort selection keeps exactly the records satisfying the
predicate that also have a defined forward return, in input order (it is a
sublist of the annotated sequence), and `cumulative_returns` has one value
per cohort record. -/
theorem partition_filter_spec (recs : List Rec) (h : Nat) (p : BRec → Bool) :
    partitionCohort p (annotate_forward_return h recs) =
      (annotate_forward_return h recs).filter
        (fun r => p r && r.ret.isSome) ∧
    (partitionCohort p (annotate_forward_return h recs)).Sublist
      (annotate_forward_return h recs) ∧
    (cumulative_returns (partitionCohort p (annotate_forward_return h recs))).length =
      (partitionCohort p (annotate_forward_return h recs)).length := by
  have hfu : ∀ r ∈ annotate_forward_return h recs,
      (r.future.isSome && r.ret.isSome) = r.ret.isSome := by
    intro r hr
    rw [ret_eq_future_of_mem hr, Option.isSome_map']
    cases r.future <;> rfl
  refine ⟨?_, ?_, ?_⟩
  · rw [partitionCohort, dropna, List.filter_filter]
    apply List.filter_congr
    intro r hr
    rw [hfu r hr, Bool.and_comm]
  · exact List.Sublist.trans (List.filter_sublist _) (List.filter_sublist _)
  · rw [cumulative_returns, length_cumprodAux, List.length_map]

/-- Witness for C6: the 90-record scenario with horizon 30 in which exactly
9 records are in extreme fear and have a defined forward return: the cohort
and its cumulative-return sequence both have length 9, and the cohort is an
order-preserving subsequence of the annotated records. -/
theorem partition_filter_spec_witness :
    (partitionCohort (fun r => decide (r.fear ≤ 20))
      (annotate_forward_return 30 scenarioRecs)).length = 9 ∧
    (cumulative_returns (partitionCohort (fun r => decide (r.fear ≤ 20))
      (annotate_forward_return 30 scenarioRecs))).length = 9 ∧
    (partitionCohort (fun r => decide (r.fear ≤ 20))
      (annotate_forward_return 30 scenarioRecs)).Sublist
      (annotate_forward_return 30 scenarioRecs) :=
  ⟨by decide, by decide,
    (partition_filter_spec scenarioRecs 30 (fun r => decide (r.fear ≤ 20))).2.1⟩

/-- C9: `backtest` and `cumulative_return` copy their input dataframe and
mutate only the copy, so after either call the caller's object is unchanged
and the same input can be reused by independent views. -/
theorem backtest_cumulative_pure (s : Store) (r : Nat) (h : Nat)
    (hr : r < s.next) :
    ((backtestSt s r h).1).heap r = s.heap r ∧
    ((cumulativeSt s r).1).heap r = s.heap r := by
  have hne : r ≠ s.next := Nat.ne_of_lt hr
  constructor
  · show Function.update (Function.update s.heap s.next _) s.next _ r = s.heap r
    rw [Function.update_noteq hne, Function.update_noteq hne]
  · show Function.update (Function.update s.heap s.next _) s.next _ r = s.heap r
    rw [Function.update_noteq hne, Function.update_noteq hne]

/-- Witness for C9 at a concrete store and reference. -/
theorem backtest_cumulative_pure_witness :
    (0 : Nat) < st0.next ∧
    ((backtestSt st0 0 7).1).heap 0 = st0.heap 0 ∧
    ((cumulativeSt st0 0).1).heap 0 = st0.heap 0 :=
  ⟨by decide, (backtest_cumulative_pure st0 0 7 (by decide)).1,
    (backtest_cumulative_pure st0 0 7 (by decide)).2⟩

/-- C10: for every hash value and `days ≥ 1` the synthetic fallback series
has exactly `days` records with strictly increasing (hence distinct) dates
and strictly positive prices, so `percent_change` over it is defined. -/
theorem fallbackSeries_spec (hsh days : Nat) (hd : 1 ≤ days) :
    (fallbackSeries hsh days).length = days ∧
    ((fallbackSeries hsh days).map Prod.fst).Pairwise (· < ·) ∧
    (∀ x ∈ fallbackSeries hsh days, 0 < x.2) ∧
    (percent_change ((fallbackSeries hsh days).map Prod.snd)).isSome = true := by
  refine ⟨by simp [fallbackSeries], ?_, ?_, ?_⟩
  · rw [List.pairwise_iff_getElem]
    intro i j hi hj hij
    simp only [fallbackSeries, List.getElem_map, List.getElem_range,
      List.length_map, List.length_range] at hi hj ⊢
    omega
  · intro x hx
    simp only [fallbackSeries, List.mem_map, List.mem_range] at hx
    obtain ⟨i, hi, hx⟩ := hx
    rw [← hx]
    apply mul_pos
    · exact_mod_cast Nat.succ_le_iff.mp (by omega : 1 ≤ 100 + hsh % 100)
    · have h7 : (0 : ℚ) ≤ ((i % 7 : Nat) : ℚ) := Nat.cast_nonneg _
      have heq : 1 + (((i % 7 : Nat) : ℚ) - 3) / 100 =
          (97 + ((i % 7 : Nat) : ℚ)) / 100 := by ring
      rw [heq]
      apply div_pos (by linarith) (by norm_num)
  · cases hl : (fallbackSeries hsh days).map Prod.snd with
    | nil =>
      exfalso
      have := congrArg List.length hl
      simp [fallbackSeries] at this
      omega
    | cons p rest => rw [percent_change]; rfl

/-- Witness for C10 at a concrete hash and day count. -/
theorem fallbackSeries_spec_witness :
    1 ≤ 3 ∧ (fallbackSeries 5 3).length = 3 :=
  ⟨by decide, (fallbackSeries_spec 5 3 (by decide)).1⟩

/-- Counterexample for C8: the code evaluated on a single-point series
returns the number 0 (first = last = 100, change = 0.0); it does not fail
with `InsufficientData` as the claim states for series of fewer than 2
points. -/
theorem percent_change_single_point :
    percent_change [100] = some 0 ∧ percent_change [100] ≠ none := by
  have h : percent_change [100] = some 0 := by
    rw [percent_change]
    norm_num [List.getLast]
  refine ⟨h, ?_⟩
  rw [h]
  exact fun hc => Option.noConfusion hc

/-- C8 amended: for every non-empty series `percent_change` returns
`(last - first) / first * 100` (hence 10.0 on the round-trip example and 0.0
on a single-point series); only an empty series makes it fail, and
`first = 0` does not raise (the float code yields a non-finite number,
modelled here by total division). -/
theorem percent_change_nonempty (prices : List ℚ) (hne : prices ≠ []) :
    ∃ v, percent_change prices = some v ∧
      v = (prices.getLast hne - prices.head hne) / prices.head hne * 100 := by
  cases prices with
  | nil => exact absurd rfl hne
  | cons p rest => exact ⟨_, rfl, rfl⟩

/-- Witness for C8 amended: the spec's round-trip example equals 10. -/
theorem percent_change_nonempty_witness :
    percent_change [100, 110] = some 10 := by
  obtain ⟨v, hv, he⟩ := percent_change_nonempty [100, 110] (by decide)
  rw [hv, he]
  norm_num [List.getLast]

/-- Counterexample for C5: merging a one-record base with an empty `other`
returns a full-length result whose attached value is missing (NaN); it does
not fail with `InsufficientData`. -/
theorem merge_empty_other_returns :
    merge_data [((0 : Int), (5 : ℚ))] [] = [(0, 5, none)] := by
  decide

/-- C5 amended: for every base series, merging with an empty `other` series
returns one record per base record with the attached sentiment value missing
(NaN fill), instead of raising `InsufficientData`. -/
theorem merge_empty_other_spec (base : List (Int × ℚ)) :
    (merge_data base []).length = base.length ∧
    merge_data base [] = (base.insertionSort fun a b => a.1 ≤ b.1).map
      (fun b => (b.1, b.2, none)) := by
  constructor
  · rw [merge_data, List.length_map]
    exact (List.perm_insertionSort _ base).length_eq
  · rw [merge_data]
    rfl

/-- C7: `resample_daily` outputs at most one observation per calendar day
(its day keys are pairwise distinct), a day appears in the output exactly
when some input observation floors to it (no interpolation of empty days),
every output value is the arithmetic mean of the same-day input values, and
an empty input yields an empty output. -/
theorem resample_daily_spec (s : List (Nat × ℚ)) :
    (s = [] → resample_daily s = []) ∧
    ((resample_daily s).map Prod.fst).Nodup ∧
    (∀ d, d ∈ (resample_daily s).map Prod.fst ↔ ∃ o ∈ s, floorDay o.1 = d) ∧
    (∀ dv ∈ resample_daily s, dv.2 =
      meanQ ((s.filter fun o => decide (floorDay o.1 = dv.1)).map Prod.snd)) := by
  have hdays : ((resample_daily s).map Prod.fst) =
      ((s.map fun o => floorDay o.1).dedup).insertionSort (· ≤ ·) := by
    rw [resample_daily, List.map_map]
    exact List.map_id _
  refine ⟨?_, ?_, ?_, ?_⟩
  · intro hs
    rw [hs]
    rfl
  · rw [hdays]
    exact ((List.perm_insertionSort _ _).nodup_iff).mpr (List.nodup_dedup _)
  · intro d
    rw [hdays]
    rw [(List.perm_insertionSort (· ≤ ·) _).mem_iff, List.mem_dedup, List.mem_map]
  · intro dv hdv
    rw [resample_daily, List.mem_map] at hdv
    obtain ⟨d, _, rfl⟩ := hdv
    rfl

/-- Witness for C7: the spec's example — inputs at day-0 09:00 (10),
day-0 15:00 (20), day-1 09:00 (30) resample to [(day 0, 15), (day 1, 30)] —
plus distinctness of the output days via the theorem. -/
theorem resample_daily_spec_witness :
    resample_daily exSeries = [(0, 15), (1, 30)] ∧
    ((resample_daily exSeries).map Prod.fst).Nodup := by
  refine ⟨?_, (resample_daily_spec exSeries).2.1⟩
  show resample_daily [(32400000, 10), (54000000, 20), (118800000, 30)] = _
  rw [resample_daily]
  norm_num [floorDay, msPerDay, List.dedup, List.insertionSort,
    List.orderedInsert, meanQ, List.filter]

/-! ### Helper lemmas: as-of search -/

theorem mem_of_getLast?_eq_some {α : Type} {l : List α} {a : α} :
    l.getLast? = some a → a ∈ l := by
  induction l with
  | nil => intro hc; exact Option.noConfusion hc
  | cons x xs ih =>
    intro hl
    cases xs with
    | nil =>
      rw [List.getLast?_singleton] at hl
      rw [← Option.some.inj hl]
      exact List.mem_singleton_self x
    | cons y ys =>
      rw [List.getLast?_cons_cons] at hl
      exact List.mem_cons_of_mem x (ih hl)

theorem mem_of_head?_eq_some {α : Type} {l : List α} {a : α} :
    l.head? = some a → a ∈ l := by
  cases l with
  | nil => intro hc; exact Option.noConfusion hc
  | cons x xs =>
    intro hl
    rw [List.head?_cons] at hl
    rw [← Option.some.inj hl]
    exact List.mem_cons_self x xs

theorem le_getLast_of_pairwise :
    ∀ (m : List Obs), m.Pairwise (fun a b => a.1 < b.1) →
      ∀ b, m.getLast? = some b → ∀ x ∈ m, x.1 ≤ b.1 := by
  intro m
  induction m with
  | nil => intro _ b hb; exact absurd hb (by simp)
  | cons c cs ih =>
    intro hp b hb x hx
    rw [List.pairwise_cons] at hp
    cases cs with
    | nil =>
      rw [List.getLast?_singleton] at hb
      have hxc := List.mem_singleton.mp hx
      have hbc := Option.some.inj hb
      exact le_of_eq (congrArg Prod.fst (hxc.trans hbc))
    | cons d ds =>
      rw [List.getLast?_cons_cons] at hb
      rcases List.mem_cons.mp hx with rfl | hx2
      · exact le_of_lt (hp.1 b (mem_of_getLast?_eq_some hb))
      · exact ih hp.2 b hb x hx2

theorem head_le_of_pairwise {m : List Obs}
    (hp : m.Pairwise (fun a b => a.1 < b.1)) {b : Obs}
    (hb : m.head? = some b) : ∀ x ∈ m, b.1 ≤ x.1 := by
  cases m with
  | nil => exact absurd hb (by simp)
  | cons c cs =>
    rw [List.head?_cons] at hb
    cases Option.some.inj hb
    rw [List.pairwise_cons] at hp
    intro x hx
    rcases List.mem_cons.mp hx with rfl | hx2
    · exact le_refl _
    · exact le_of_lt (hp.1 x hx2)

theorem backwardSearch_spec {t : Int} {other : List Obs} {b : Obs}
    (hp : other.Pairwise (fun a b => a.1 < b.1))
    (hb : backwardSearch t other = some b) :
    b ∈ other ∧ b.1 ≤ t ∧ ∀ x ∈ other, x.1 ≤ t → x.1 ≤ b.1 := by
  have hmem := mem_of_getLast?_eq_some hb
  have hf := List.mem_filter.mp hmem
  refine ⟨hf.1, of_decide_eq_true hf.2, ?_⟩
  intro x hx hxt
  exact le_getLast_of_pairwise _
    (List.Pairwise.sublist (List.filter_sublist _) hp) b hb x
    (List.mem_filter.mpr ⟨hx, decide_eq_true hxt⟩)

theorem backwardSearch_none {t : Int} {other : List Obs}
    (hb : backwardSearch t other = none) : ∀ x ∈ other, t < x.1 := by
  intro x hx
  rw [backwardSearch, List.getLast?_eq_none_iff, List.filter_eq_nil_iff] at hb
  have hxn := hb x hx
  simp at hxn
  exact hxn

theorem forwardSearch_spec {t : Int} {other : List Obs} {f : Obs}
    (hp : other.Pairwise (fun a b => a.1 < b.1))
    (hf : forwardSearch t other = some f) :
    f ∈ other ∧ t ≤ f.1 ∧ ∀ x ∈ other, t ≤ x.1 → f.1 ≤ x.1 := by
  have hmem := mem_of_head?_eq_some hf
  have hff := List.mem_filter.mp hmem
  refine ⟨hff.1, of_decide_eq_true hff.2, ?_⟩
  intro x hx hxt
  exact head_le_of_pairwise
    (List.Pairwise.sublist (List.filter_sublist _) hp) hf x
    (List.mem_filter.mpr ⟨hx, decide_eq_true hxt⟩)

theorem forwardSearch_none {t : Int} {other : List Obs}
    (hf : forwardSearch t other = none) : ∀ x ∈ other, x.1 < t := by
  intro x hx
  rw [forwardSearch, List.head?_eq_none_iff, List.filter_eq_nil_iff] at hf
  have hxn := hf x hx
  simp at hxn
  exact hxn

/-- The nearest-row selection is a true nearest neighbour with ties broken
towards the earlier timestamp, over a non-empty strictly sorted series. -/
theorem asofNearest_spec (t : Int) (other : List Obs) (hne : other ≠ [])
    (hp : other.Pairwise (fun a b => a.1 < b.1)) :
    ∃ o, asofNearest t other = some o ∧ o ∈ other ∧
      (∀ x ∈ other, |o.1 - t| ≤ |x.1 - t|) ∧
      (∀ x ∈ other, |x.1 - t| = |o.1 - t| → o.1 ≤ x.1) := by
  rw [asofNearest]
  cases hbs : backwardSearch t other with
  | none =>
    cases hfs : forwardSearch t other with
    | none =>
      exfalso
      cases other with
      | nil => exact hne rfl
      | cons c cs =>
        have h1 := backwardSearch_none hbs c (List.mem_cons_self c cs)
        have h2 := forwardSearch_none hfs c (List.mem_cons_self c cs)
        omega
    | some f =>
      obtain ⟨hfm, hft, hfmin⟩ := forwardSearch_spec hp hfs
      have hall := backwardSearch_none hbs
      refine ⟨f, rfl, hfm, ?_, ?_⟩
      · intro x hx
        have h1 := hall x hx
        have h2 := hfmin x hx (le_of_lt h1)
        rw [abs_of_nonneg (by omega : (0:ℤ) ≤ f.1 - t),
          abs_of_nonneg (by omega : (0:ℤ) ≤ x.1 - t)]
        omega
      · intro x hx
        have h1 := hall x hx
        have h2 := hfmin x hx (le_of_lt h1)
        rw [abs_of_nonneg (by omega : (0:ℤ) ≤ x.1 - t),
          abs_of_nonneg (by omega : (0:ℤ) ≤ f.1 - t)]
        omega
  | some b =>
    obtain ⟨hbm, hbt, hbmax⟩ := backwardSearch_spec hp hbs
    cases hfs : forwardSearch t other with
    | none =>
      have hall := forwardSearch_none hfs
      refine ⟨b, rfl, hbm, ?_, ?_⟩
      · intro x hx
        have h1 := hall x hx
        have h2 := hbmax x hx (le_of_lt h1)
        rw [abs_of_nonpos (by omega : b.1 - t ≤ 0),
          abs_of_nonpos (by omega : x.1 - t ≤ 0)]
        omega
      · intro x hx
        have h1 := hall x hx
        have h2 := hbmax x hx (le_of_lt h1)
        rw [abs_of_nonpos (by omega : x.1 - t ≤ 0),
          abs_of_nonpos (by omega : b.1 - t ≤ 0)]
        omega
    | some f =>
      obtain ⟨hfm, hft, hfmin⟩ := forwardSearch_spec hp hfs
      by_cases hc : t - b.1 ≤ f.1 - t
      · have hsel : (if t - b.1 ≤ f.1 - t then some b else some f) = some b :=
          if_pos hc
        refine ⟨b, hsel, hbm, ?_, ?_⟩
        · intro x hx
          rcases le_total x.1 t with hxt | hxt
          · have h2 := hbmax x hx hxt
            rw [abs_of_nonpos (by omega : b.1 - t ≤ 0),
              abs_of_nonpos (by omega : x.1 - t ≤ 0)]
            omega
          · have h2 := hfmin x hx hxt
            rw [abs_of_nonpos (by omega : b.1 - t ≤ 0),
              abs_of_nonneg (by omega : (0:ℤ) ≤ x.1 - t)]
            omega
        · intro x hx
          rcases le_total x.1 t with hxt | hxt
          · have h2 := hbmax x hx hxt
            rw [abs_of_nonpos (by omega : x.1 - t ≤ 0),
              abs_of_nonpos (by omega : b.1 - t ≤ 0)]
            omega
          · intro _
            omega
      · have hsel : (if t - b.1 ≤ f.1 - t then some b else some f) = some f :=
          if_neg hc
        refine ⟨f, hsel, hfm, ?_, ?_⟩
        · intro x hx
          rcases le_total x.1 t with hxt | hxt
          · have h2 := hbmax x hx hxt
            rw [abs_of_nonneg (by omega : (0:ℤ) ≤ f.1 - t),
              abs_of_nonpos (by omega : x.1 - t ≤ 0)]
            omega
          · have h2 := hfmin x hx hxt
            rw [abs_of_nonneg (by omega : (0:ℤ) ≤ f.1 - t),
              abs_of_nonneg (by omega : (0:ℤ) ≤ x.1 - t)]
            omega
        · intro x hx
          rcases le_total x.1 t with hxt | hxt
          · have h2 := hbmax x hx hxt
            rw [abs_of_nonpos (by omega : x.1 - t ≤ 0),
              abs_of_nonneg (by omega : (0:ℤ) ≤ f.1 - t)]
            omega
          · have h2 := hfmin x hx hxt
            rw [abs_of_nonneg (by omega : (0:ℤ) ≤ x.1 - t),
              abs_of_nonneg (by omega : (0:ℤ) ≤ f.1 - t)]
            omega

/-- C4: over a non-empty (strictly timestamp-sorted) `other` series,
`merge_data` produces exactly one output record per base record (length is
preserved, nothing dropped), and every base record is joined with the value
of an observation of `other` whose timestamp is closest to the base
timestamp, ties broken towards the earlier timestamp of `other`. -/
theorem merge_nearest_total (base : List (Int × ℚ)) (other : List Obs)
    (hne : other ≠ []) (hp : other.Pairwise (fun a b => a.1 < b.1)) :
    (merge_data base other).length = base.length ∧
    ∀ b ∈ base, ∃ o, o ∈ other ∧
      (b.1, b.2, some o.2) ∈ merge_data base other ∧
      (∀ x ∈ other, |o.1 - b.1| ≤ |x.1 - b.1|) ∧
      (∀ x ∈ other, |x.1 - b.1| = |o.1 - b.1| → o.1 ≤ x.1) := by
  have hsort : other.insertionSort (fun a b => a.1 ≤ b.1) = other :=
    List.Sorted.insertionSort_eq (hp.imp fun h => le_of_lt h)
  constructor
  · rw [merge_data, List.length_map]
    exact (List.perm_insertionSort _ base).length_eq
  · intro b hb
    obtain ⟨o, ho, hom, hdist, htie⟩ := asofNearest_spec b.1 other hne hp
    refine ⟨o, hom, ?_, hdist, htie⟩
    rw [merge_data, hsort]
    exact List.mem_map.mpr
      ⟨b, ((List.perm_insertionSort _ base).mem_iff).mpr hb, by rw [ho]; rfl⟩

/-- Witness for C4: timestamp 5 is equidistant from the observations at 0
and 10; the merge keeps the single base record and attaches the value of
the earlier observation (30). -/
theorem merge_nearest_total_witness :
    exOther ≠ [] ∧
    (merge_data [((5 : Int), (1 : ℚ))] exOther).length = 1 ∧
    merge_data [((5 : Int), (1 : ℚ))] exOther = [(5, 1, some 30)] :=
  ⟨by decide,
    (merge_nearest_total [((5 : Int), (1 : ℚ))] exOther (by decide) (by decide)).1,
    by decide⟩

end ChainRadar
